import Mathlib

/-!
Shallow embedding of `scripts/convert_speaker_pt_to_json.py`: the word-code
apportionment engine `_distribute_codes` (lines 118-166) and the segment
builder `_build_words_from_codes` (lines 169-188).

Modelling conventions:
* Python `int` is modelled as `ℤ`; list positions as `ℕ`.
* The real-valued shares `weight * total_codes / total_weight` are modelled
  in exact rational arithmetic `ℚ`.  The global theorems below rest on the
  final validation guards of the source (lines 156-164), which hold whatever
  rounding happens in the share computation; the concrete evaluations are at
  inputs where binary floating point and exact arithmetic agree on every
  comparison and floor the source performs.
* Python `sorted` is a stable sort; it is modelled by a stable insertion
  sort `stableSort` (any two stable sorts of the same list under the same
  key agree, so this is faithful).
* The `while` loop of lines 146-154 is modelled by `redistributeAux` with an
  explicit iteration budget; a budget of `remaining + idx_list.length`
  iterations always suffices (each iteration either consumes one remaining
  unit or removes one candidate index), which is exactly the termination
  argument for the source loop.
* A raised `ValueError` is modelled as `Except.error` with the source's
  message text.
-/

unseal Rat.mul Rat.inv Rat.add Rat.sub

deriving instance DecidableEq for Except

/-- Stable insertion of `x` into `l`: `x` goes before the first element `y`
for which `lt y x` fails, so elements that compare equal keep their original
relative order. -/
def insertStable {α : Type} (lt : α → α → Bool) (x : α) : List α → List α
  | [] => [x]
  | y :: ys => if lt y x then y :: insertStable lt x ys else x :: y :: ys

/-- Stable sort by the strict comparator `lt`; models Python `sorted`, which
is guaranteed stable. -/
def stableSort {α : Type} (lt : α → α → Bool) : List α → List α
  | [] => []
  | x :: xs => insertStable lt x (stableSort lt xs)

/-- Line 127: `shares = [weight * total_codes / total_weight for weight in weights]`. -/
def shares (total : ℤ) (weights : List ℤ) : List ℚ :=
  weights.map (fun (w : ℤ) => (w : ℚ) * (total : ℚ) / ((weights.sum : ℤ) : ℚ))

/-- Line 128: `counts = [max(1, int(math.floor(share))) for share in shares]`. -/
def initialCounts (total : ℤ) (weights : List ℤ) : List ℤ :=
  (shares total weights).map (fun s => max 1 ⌊s⌋)

/-- Lines 130-131: `delta = total_codes - sum(counts)` before redistribution. -/
def deltaOf (total : ℤ) (weights : List ℤ) : ℤ :=
  total - (initialCounts total weights).sum

/-- Line 134: `fractional = [share - math.floor(share) for share in shares]`. -/
def fracParts (total : ℤ) (weights : List ℤ) : List ℚ :=
  (shares total weights).map (fun s => s - ⌊s⌋)

/-- Lines 135-141: `indexed = sorted(enumerate(fractional), key=item[1],
reverse=delta > 0)` followed by `idx_list = [index for index, _ in indexed]`.
With `reverse=True` Python sorts descending by key, ties in original order;
with `reverse=False` ascending by key, ties in original order. -/
def rankedIdxList (total : ℤ) (weights : List ℤ) : List ℕ :=
  (if 0 < deltaOf total weights then
      stableSort (fun a b => decide (b.2 < a.2)) (fracParts total weights).enum
    else
      stableSort (fun a b => decide (a.2 < b.2)) (fracParts total weights).enum).map
    Prod.fst

/-- Lines 146-154, one constructor case per loop test, with an explicit
iteration budget `fuel`:

```
while remaining > 0 and idx_list:
    idx = idx_list[pointer % len(idx_list)]
    proposed = counts[idx] + step
    if proposed <= 0:
        idx_list.pop(pointer % len(idx_list))
        continue
    counts[idx] = proposed
    remaining -= 1
    pointer += 1
```

Returns `none` if the budget runs out before the loop test fails. -/
def redistributeAux (step : ℤ) : ℕ → ℕ → List ℕ → ℕ → List ℤ → Option (List ℤ)
  | 0, remaining, idxList, _, counts =>
      if 0 < remaining ∧ idxList ≠ [] then none else some counts
  | fuel + 1, remaining, idxList, pointer, counts =>
      if 0 < remaining ∧ idxList ≠ [] then
        let i := pointer % idxList.length
        let idx := idxList.getD i 0
        let proposed := counts.getD idx 0 + step
        if proposed ≤ 0 then
          redistributeAux step fuel remaining (idxList.eraseIdx i) pointer counts
        else
          redistributeAux step fuel (remaining - 1) idxList (pointer + 1)
            (counts.set idx proposed)
      else some counts

/-- The loop of lines 143-154, run with the always-sufficient budget
`remaining + idxList.length` (theorem `redistributeAux_terminates` below
shows the budget is never exhausted, so the `getD` default is never used). -/
def redistribute (step : ℤ) (remaining : ℕ) (idxList : List ℕ) (pointer : ℕ)
    (counts : List ℤ) : List ℤ :=
  (redistributeAux step (remaining + idxList.length) remaining idxList pointer
      counts).getD counts

/-- Lines 133-154: the counts after the (conditional) redistribution phase,
with `step = 1 if delta > 0 else -1` and `remaining = abs(delta)`. -/
def countsAfterLoop (total : ℤ) (weights : List ℤ) : List ℤ :=
  if deltaOf total weights ≠ 0 then
    redistribute (if 0 < deltaOf total weights then 1 else -1)
      (deltaOf total weights).natAbs (rankedIdxList total weights) 0
      (initialCounts total weights)
  else initialCounts total weights

/-- Line 158: `counts[-1] += adjustment` — add `d` to the last element. -/
def addToLast (d : ℤ) : List ℤ → List ℤ
  | [] => []
  | [c] => [c + d]
  | c :: c2 :: rest => c :: addToLast d (c2 :: rest)

/-- Lines 156-158: `adjustment = total_codes - sum(counts); if adjustment != 0:
counts[-1] += adjustment`. -/
def finalCounts (total : ℤ) (weights : List ℤ) : List ℤ :=
  if total - (countsAfterLoop total weights).sum ≠ 0 then
    addToLast (total - (countsAfterLoop total weights).sum)
      (countsAfterLoop total weights)
  else countsAfterLoop total weights

/-- Lines 118-166: `_distribute_codes(total_codes, weights)`.  The three
input guards are lines 119-125, the two output guards lines 160-164. -/
def distributeCodes (total : ℤ) (weights : List ℤ) : Except String (List ℤ) :=
  if total ≤ 0 then Except.error ("Speaker checkpoint did not contain any codes.")
  else if weights = [] then Except.error ("Transcript token list is empty.")
  else if weights.sum ≤ 0 then Except.error ("Transcript token weights are invalid.")
  else if ∃ c ∈ finalCounts total weights, c ≤ 0 then
    Except.error ("Code distribution resulted in non-positive segment length.")
  else if (finalCounts total weights).sum ≠ total then
    Except.error ("Failed to distribute codes across transcript tokens.")
  else Except.ok (finalCounts total weights)

/-- Modelled from the spec: rank word indices by fractional remainder,
descending, ties broken stably by original index order.  Stated as a sort by
the strict lexicographic order on (remainder descending, index ascending),
which any stable descending-by-remainder sort realises. -/
def specDescRanking (total : ℤ) (weights : List ℤ) : List ℕ :=
  (stableSort (fun a b => decide (b.2 < a.2 ∨ (a.2 = b.2 ∧ a.1 < b.1)))
      (fracParts total weights).enum).map Prod.fst

/-- Modelled from the spec vocabulary: rank word indices by fractional
remainder, ascending, ties broken stably by original index order. -/
def specAscRanking (total : ℤ) (weights : List ℤ) : List ℕ :=
  (stableSort (fun a b => decide (a.2 < b.2 ∨ (a.2 = b.2 ∧ a.1 < b.1)))
      (fracParts total weights).enum).map Prod.fst

/-- Line 24: `FRAME_RATE_HZ = 50.0`. -/
def FRAME_RATE_HZ : ℚ := 50

/-- Python `round(x, 2)`.  Every value this model rounds satisfies
`x * 100 ∈ ℤ` (it is `count / 50` scaled by 100, i.e. `2 * count`), so the
result is exact and the choice of tie-breaking mode is immaterial. -/
def round2 (q : ℚ) : ℚ := ((round (q * 100) : ℤ) : ℚ) / 100

/-- One entry of the `words` list built at lines 181-187. -/
structure WordRecord where
  word : String
  duration : ℚ
  codes : List ℤ
  deriving DecidableEq, Repr

/-- Lines 173-187: walk `zip(transcript_tokens, counts)` keeping a running
`offset`, slicing `codes[offset : offset + count]` and computing
`duration = round(count / FRAME_RATE_HZ, 2)` clamped at
`round(1.0 / FRAME_RATE_HZ, 2)` when the computed value is `<= 0`. -/
def buildRecords (codes : List ℤ) : List (String × ℤ) → ℕ → List WordRecord
  | [], _ => []
  | (token, count) :: rest, offset =>
      let segment := (codes.drop offset).take count.toNat
      let d0 := round2 ((count : ℚ) / FRAME_RATE_HZ)
      let duration := if d0 ≤ 0 then round2 (1 / FRAME_RATE_HZ) else d0
      { word := token, duration := duration, codes := segment } ::
        buildRecords codes rest (offset + count.toNat)

/-- Lines 169-188: `_build_words_from_codes(codes, transcript_tokens)` with
`weights = [max(1, len(token)) for token in transcript_tokens]`. -/
def buildWordsFromCodes (codes : List ℤ) (tokens : List String) :
    Except String (List WordRecord) :=
  match distributeCodes (codes.length : ℤ)
      (tokens.map (fun t => ((max 1 t.length : ℕ) : ℤ))) with
  | Except.error e => Except.error e
  | Except.ok counts => Except.ok (buildRecords codes (tokens.zip counts) 0)

/-- A list of integers that are all at least `1` has sum at least its length. -/
theorem list_length_le_sum (l : List ℤ) (h : ∀ c ∈ l, 1 ≤ c) :
    (l.length : ℤ) ≤ l.sum := by
  induction l with
  | nil => simp
  | cons a t ih =>
      have ha : 1 ≤ a := h a (by simp)
      have ht : (t.length : ℤ) ≤ t.sum := ih (fun c hc => h c (by simp [hc]))
      simp only [List.length_cons, List.sum_cons]
      push_cast
      omega

/-- Summing the `toNat`s of a list of nonnegative integers gives the integer sum. -/
theorem sum_toNat_of_nonneg (l : List ℤ) (h : ∀ c ∈ l, 0 ≤ c) :
    (((l.map Int.toNat).sum : ℕ) : ℤ) = l.sum := by
  induction l with
  | nil => simp
  | cons a t ih =>
      have ha : 0 ≤ a := h a (by simp)
      have ht := ih (fun c hc => h c (by simp [hc]))
      simp only [List.map_cons, List.sum_cons]
      rw [Nat.cast_add, Int.toNat_of_nonneg ha, ht]

theorem addToLast_sum (d : ℤ) : ∀ l : List ℤ, l ≠ [] → (addToLast d l).sum = l.sum + d := by
  intro l
  induction l with
  | nil => intro h; exact absurd rfl h
  | cons a t ih =>
      intro _
      cases t with
      | nil => simp [addToLast]
      | cons b r =>
          have := ih (by simp)
          simp only [addToLast, List.sum_cons] at this ⊢
          omega

theorem addToLast_length (d : ℤ) : ∀ l : List ℤ, (addToLast d l).length = l.length := by
  intro l
  induction l with
  | nil => rfl
  | cons a t ih =>
      cases t with
      | nil => rfl
      | cons b r => simpa [addToLast] using ih

/-- The loop body can run at most `remaining + idxList.length` times: each
iteration either consumes one remaining unit or removes one candidate index,
so a budget of the sum always reaches the loop exit. -/
theorem redistributeAux_isSome (step : ℤ) :
    ∀ fuel remaining idxList pointer counts,
      remaining + List.length idxList ≤ fuel →
      (redistributeAux step fuel remaining idxList pointer counts).isSome = true := by
  intro fuel
  induction fuel with
  | zero =>
      intro remaining idxList pointer counts h
      have hr : remaining = 0 := by omega
      simp [redistributeAux, hr]
  | succ f ih =>
      intro remaining idxList pointer counts h
      by_cases hc : 0 < remaining ∧ idxList ≠ []
      · have hlen : 0 < idxList.length := List.length_pos.mpr hc.2
        simp only [redistributeAux, if_pos hc]
        by_cases hp :
            counts.getD (idxList.getD (pointer % idxList.length) 0) 0 + step ≤ 0
        · rw [if_pos hp]
          apply ih
          rw [List.length_eraseIdx_of_lt (Nat.mod_lt _ hlen)]
          omega
        · rw [if_neg hp]
          apply ih
          omega
      · simp [redistributeAux, if_neg hc]

theorem redistributeAux_length (step : ℤ) :
    ∀ fuel remaining idxList pointer counts r,
      redistributeAux step fuel remaining idxList pointer counts = some r →
      r.length = counts.length := by
  intro fuel
  induction fuel with
  | zero =>
      intro remaining idxList pointer counts r h
      simp only [redistributeAux] at h
      split at h
      · exact absurd h (by simp)
      · simpa using (Option.some.inj h).symm ▸ rfl
  | succ f ih =>
      intro remaining idxList pointer counts r h
      simp only [redistributeAux] at h
      split at h
      · split at h
        · exact ih _ _ _ _ _ h
        · have := ih _ _ _ _ _ h
          simpa [List.length_set] using this
      · simpa using (Option.some.inj h).symm ▸ rfl

theorem redistribute_length (step : ℤ) (remaining : ℕ) (idxList : List ℕ)
    (pointer : ℕ) (counts : List ℤ) :
    (redistribute step remaining idxList pointer counts).length = counts.length := by
  unfold redistribute
  cases h : redistributeAux step (remaining + idxList.length) remaining idxList
      pointer counts with
  | none => simp
  | some r => simpa using redistributeAux_length step _ _ _ _ _ _ h

theorem initialCounts_length (total : ℤ) (weights : List ℤ) :
    (initialCounts total weights).length = weights.length := by
  simp only [initialCounts, shares, List.length_map]

theorem countsAfterLoop_length (total : ℤ) (weights : List ℤ) :
    (countsAfterLoop total weights).length = weights.length := by
  unfold countsAfterLoop
  split
  · rw [redistribute_length, initialCounts_length]
  · exact initialCounts_length total weights

theorem finalCounts_length (total : ℤ) (weights : List ℤ) :
    (finalCounts total weights).length = weights.length := by
  unfold finalCounts
  split
  · rw [addToLast_length, countsAfterLoop_length]
  · exact countsAfterLoop_length total weights

/-- After the line-156 adjustment the counts always sum to the requested
total (for a non-empty weight list): either the loop already left the right
sum, or the residue was absorbed into the last element. -/
theorem finalCounts_sum (total : ℤ) (weights : List ℤ) (h : weights ≠ []) :
    (finalCounts total weights).sum = total := by
  have hne : countsAfterLoop total weights ≠ [] := by
    intro hnil
    have := countsAfterLoop_length total weights
    rw [hnil] at this
    exact h (List.length_eq_zero.mp this.symm)
  unfold finalCounts
  split
  · rw [addToLast_sum _ _ hne]; ring
  · omega

/-- Unfolding of a successful `_distribute_codes` run: the returned list is
the post-adjustment counts and both output guards (lines 160-164) passed. -/
theorem distributeCodes_ok_eq (total : ℤ) (weights : List ℤ) (counts : List ℤ)
    (h : distributeCodes total weights = Except.ok counts) :
    counts = finalCounts total weights ∧ counts.sum = total ∧ ∀ c ∈ counts, 1 ≤ c := by
  unfold distributeCodes at h
  split_ifs at h with h1 h2 h3 h4 h5
  simp only [Except.ok.injEq] at h
  subst h
  push_neg at h4
  refine ⟨rfl, by omega, ?_⟩
  intro c hcmem
  have := h4 c hcmem
  omega

theorem mem_insertStable {α : Type} (lt : α → α → Bool) (x a : α) :
    ∀ l : List α, a ∈ insertStable lt x l ↔ a = x ∨ a ∈ l := by
  intro l
  induction l with
  | nil => simp [insertStable]
  | cons y ys ih =>
      simp only [insertStable]
      split
      · simp only [List.mem_cons, ih]
        tauto
      · simp only [List.mem_cons]

theorem mem_stableSort {α : Type} (lt : α → α → Bool) (a : α) :
    ∀ l : List α, a ∈ stableSort lt l ↔ a ∈ l := by
  intro l
  induction l with
  | nil => simp [stableSort]
  | cons x xs ih => simp [stableSort, mem_insertStable, ih]

theorem insertStable_congr {α : Type} (lt₁ lt₂ : α → α → Bool) (x : α) :
    ∀ l : List α, (∀ y ∈ l, lt₁ y x = lt₂ y x) →
      insertStable lt₁ x l = insertStable lt₂ x l := by
  intro l
  induction l with
  | nil => intro _; rfl
  | cons y ys ih =>
      intro h
      simp only [insertStable]
      rw [h y (by simp)]
      split
      · rw [ih (fun z hz => h z (by simp [hz]))]
      · rfl

/-- Two comparators that agree on every (earlier, later) pair of the input
produce the same stable sort. -/
theorem stableSort_congr {α : Type} (lt₁ lt₂ : α → α → Bool) :
    ∀ l : List α, List.Pairwise (fun x y => lt₁ y x = lt₂ y x) l →
      stableSort lt₁ l = stableSort lt₂ l := by
  intro l
  induction l with
  | nil => intro _; rfl
  | cons x xs ih =>
      intro h
      rcases List.pairwise_cons.mp h with ⟨hx, hxs⟩
      simp only [stableSort]
      rw [ih hxs]
      exact insertStable_congr lt₁ lt₂ x (stableSort lt₂ xs)
        (fun y hy => hx y ((mem_stableSort lt₂ y xs).mp hy))

theorem le_fst_of_mem_enumFrom {α : Type} :
    ∀ (l : List α) (n : ℕ) (p : ℕ × α), p ∈ l.enumFrom n → n ≤ p.1 := by
  intro l
  induction l with
  | nil => intro n p h; simp at h
  | cons a t ih =>
      intro n p h
      rw [List.enumFrom_cons] at h
      rcases List.mem_cons.mp h with h | h
      · subst h; exact le_refl n
      · exact Nat.le_of_succ_le (ih (n + 1) p h)

/-- The indices produced by `enumerate` are strictly increasing along the list. -/
theorem pairwise_fst_enumFrom {α : Type} :
    ∀ (l : List α) (n : ℕ), List.Pairwise (fun a b => a.1 < b.1) (l.enumFrom n) := by
  intro l
  induction l with
  | nil => intro n; simp
  | cons a t ih =>
      intro n
      rw [List.enumFrom_cons]
      exact List.pairwise_cons.mpr
        ⟨fun p hp => Nat.lt_of_lt_of_le (Nat.lt_succ_self n)
            (le_fst_of_mem_enumFrom t (n + 1) p hp),
          ih (n + 1)⟩

theorem pairwise_fst_enum {α : Type} (l : List α) :
    List.Pairwise (fun a b => a.1 < b.1) l.enum :=
  pairwise_fst_enumFrom l 0

/-- Rounding `count / 50` to two decimals is exact, because the scaled value
`count / 50 * 100 = 2 * count` is an integer. -/
theorem round2_int_div_frame (c : ℤ) :
    round2 ((c : ℚ) / FRAME_RATE_HZ) = (c : ℚ) / FRAME_RATE_HZ := by
  unfold round2 FRAME_RATE_HZ
  have h : ((c : ℚ) / 50) * 100 = ((2 * c : ℤ) : ℚ) := by push_cast; ring
  rw [h, round_intCast]
  push_cast
  ring

/-- The concatenation of the slices produced by the builder loop is the
corresponding contiguous region of the code list. -/
theorem buildRecords_flatten (codes : List ℤ) :
    ∀ (pairs : List (String × ℤ)) (offset : ℕ),
      ((buildRecords codes pairs offset).map WordRecord.codes).flatten =
        (codes.drop offset).take ((pairs.map (fun p => p.2.toNat)).sum) := by
  intro pairs
  induction pairs with
  | nil => intro offset; simp [buildRecords]
  | cons p rest ih =>
      intro offset
      obtain ⟨token, count⟩ := p
      simp only [buildRecords, List.map_cons, List.flatten_cons, List.sum_cons]
      rw [ih (offset + count.toNat), List.take_add, List.drop_drop]

/-- Every record the builder loop produces (from counts that are all at
least 1 and fit inside the code list) has the unclamped duration
`round(count / 50, 2)`, and that duration is strictly positive. -/
theorem buildRecords_duration (codes : List ℤ) :
    ∀ (pairs : List (String × ℤ)) (offset : ℕ),
      (∀ p ∈ pairs, 1 ≤ p.2) →
      offset + (pairs.map (fun p => p.2.toNat)).sum ≤ codes.length →
      ∀ r ∈ buildRecords codes pairs offset,
        r.duration = round2 ((r.codes.length : ℚ) / FRAME_RATE_HZ) ∧ 0 < r.duration := by
  intro pairs
  induction pairs with
  | nil => intro offset _ _ r hr; simp [buildRecords] at hr
  | cons p rest ih =>
      intro offset hpos hbound r hr
      obtain ⟨token, count⟩ := p
      have hc1 : 1 ≤ count := hpos (token, count) (by simp)
      simp only [List.map_cons, List.sum_cons] at hbound
      simp only [buildRecords, List.mem_cons] at hr
      rcases hr with hr | hr
      · have hlen0 : ((codes.drop offset).take count.toNat).length = count.toNat := by
          rw [List.length_take, List.length_drop, Nat.min_eq_left (by omega)]
        have hcastq : ((count.toNat : ℕ) : ℚ) = (count : ℚ) := by
          have hz : ((count.toNat : ℕ) : ℤ) = count := Int.toNat_of_nonneg (by omega)
          exact_mod_cast hz
        have hfpos : 0 < (count : ℚ) / FRAME_RATE_HZ := by
          unfold FRAME_RATE_HZ
          apply div_pos
          · exact_mod_cast (by omega : (0 : ℤ) < count)
          · norm_num
        have hd0 : round2 ((count : ℚ) / FRAME_RATE_HZ) = (count : ℚ) / FRAME_RATE_HZ :=
          round2_int_div_frame count
        have hif : ¬ round2 ((count : ℚ) / FRAME_RATE_HZ) ≤ 0 := by
          rw [hd0]
          exact not_le.mpr hfpos
        subst hr
        rw [if_neg hif]
        refine ⟨?_, by rw [hd0]; exact hfpos⟩
        rw [hlen0, hcastq]
      · exact ih (offset + count.toNat) (fun q hq => hpos q (by simp [hq]))
          (by omega) r hr

/-- Decomposition of a successful `_build_words_from_codes` run into the
facts needed about the underlying counts. -/
theorem buildWords_ok_counts (codes : List ℤ) (tokens : List String)
    (ws : List WordRecord)
    (h : buildWordsFromCodes codes tokens = Except.ok ws) :
    ∃ counts : List ℤ,
      distributeCodes (codes.length : ℤ)
          (tokens.map (fun t => ((max 1 t.length : ℕ) : ℤ))) = Except.ok counts ∧
      ws = buildRecords codes (tokens.zip counts) 0 ∧
      (∀ c ∈ counts, 1 ≤ c) ∧
      counts.length = tokens.length ∧
      (tokens.zip counts).map (fun p => p.2.toNat) = counts.map Int.toNat ∧
      (counts.map Int.toNat).sum = codes.length := by
  unfold buildWordsFromCodes at h
  cases hd : distributeCodes (codes.length : ℤ)
      (tokens.map (fun t => ((max 1 t.length : ℕ) : ℤ))) with
  | error e => rw [hd] at h; exact absurd h (by simp)
  | ok counts =>
      rw [hd] at h
      simp only [Except.ok.injEq] at h
      obtain ⟨hfc, hsum, hpos⟩ := distributeCodes_ok_eq _ _ _ hd
      have hlen : counts.length = tokens.length := by
        rw [hfc, finalCounts_length, List.length_map]
      have hmap : (tokens.zip counts).map (fun p => p.2.toNat) = counts.map Int.toNat := by
        have he : (fun p : String × ℤ => p.2.toNat) = (Int.toNat ∘ Prod.snd) := rfl
        rw [he, ← List.map_map,
          List.map_snd_zip tokens counts (le_of_eq hlen)]
      have hsum2 : (counts.map Int.toNat).sum = codes.length := by
        have hnn : ∀ c ∈ counts, (0 : ℤ) ≤ c :=
          fun c hc => le_trans zero_le_one (hpos c hc)
        have hcast := sum_toNat_of_nonneg counts hnn
        omega
      exact ⟨counts, rfl, h.symm, hpos, hlen, hmap, hsum2⟩

/-- C1 (exactness): for every total ≥ 1 and every non-empty weight list with
all weights ≥ 1, whenever `_distribute_codes` returns normally the sum of the
returned segment lengths equals the total exactly. -/
theorem distributeCodes_exact (total : ℤ) (weights : List ℤ) (counts : List ℤ)
    (h1 : 1 ≤ total) (h2 : weights ≠ []) (h3 : ∀ w ∈ weights, 1 ≤ w)
    (h : distributeCodes total weights = Except.ok counts) :
    counts.sum = total :=
  (distributeCodes_ok_eq total weights counts h).2.1

theorem distributeCodes_exact_witness :
    distributeCodes 10 [1, 1, 1, 1, 1] = Except.ok [2, 2, 2, 2, 2] ∧
      List.sum [(2 : ℤ), 2, 2, 2, 2] = 10 :=
  ⟨by decide,
    distributeCodes_exact 10 [1, 1, 1, 1, 1] [2, 2, 2, 2, 2] (by decide) (by decide)
      (by decide) (by decide)⟩

/-- C2 (positivity): for every total ≥ 1 and every non-empty weight list with
all weights ≥ 1, whenever `_distribute_codes` returns normally every element
of the returned list is ≥ 1 — no word is assigned zero codes. -/
theorem distributeCodes_positive (total : ℤ) (weights : List ℤ) (counts : List ℤ)
    (h1 : 1 ≤ total) (h2 : weights ≠ []) (h3 : ∀ w ∈ weights, 1 ≤ w)
    (h : distributeCodes total weights = Except.ok counts) :
    ∀ c ∈ counts, 1 ≤ c :=
  (distributeCodes_ok_eq total weights counts h).2.2

theorem distributeCodes_positive_witness :
    distributeCodes 10 [1, 1, 1, 1, 1] = Except.ok [2, 2, 2, 2, 2] ∧ (1 : ℤ) ≤ 2 :=
  ⟨by decide,
    distributeCodes_positive 10 [1, 1, 1, 1, 1] [2, 2, 2, 2, 2] (by decide) (by decide)
      (by decide) (by decide) 2 (by decide)⟩

/-- C3 (infeasibility): for every total ≥ 1 and every non-empty weight list
with all weights ≥ 1, if the number of weights exceeds the total then
`_distribute_codes` raises (the non-positive-segment `ValueError`) rather
than returning; in particular at `total = 3`, `weights = [5, 5, 5, 5, 5]`. -/
theorem distributeCodes_infeasible (total : ℤ) (weights : List ℤ)
    (h1 : 1 ≤ total) (h2 : weights ≠ []) (h3 : ∀ w ∈ weights, 1 ≤ w)
    (h4 : total < (weights.length : ℤ)) :
    distributeCodes total weights =
      Except.error ("Code distribution resulted in non-positive segment length.") := by
  have hlenpos : 0 < weights.length := List.length_pos.mpr h2
  have hwsum : (weights.length : ℤ) ≤ weights.sum := list_length_le_sum weights h3
  have hfsum : (finalCounts total weights).sum = total := finalCounts_sum total weights h2
  have hflen : (finalCounts total weights).length = weights.length :=
    finalCounts_length total weights
  have hex : ∃ c ∈ finalCounts total weights, c ≤ 0 := by
    by_contra hno
    push_neg at hno
    have hall : ∀ c ∈ finalCounts total weights, 1 ≤ c := by
      intro c hc
      have := hno c hc
      omega
    have := list_length_le_sum (finalCounts total weights) hall
    rw [hflen, hfsum] at this
    omega
  unfold distributeCodes
  rw [if_neg (by omega : ¬ total ≤ 0), if_neg h2,
    if_neg (by omega : ¬ weights.sum ≤ 0), if_pos hex]

theorem distributeCodes_infeasible_witness :
    distributeCodes 3 [5, 5, 5, 5, 5] =
      Except.error ("Code distribution resulted in non-positive segment length.") :=
  distributeCodes_infeasible 3 [5, 5, 5, 5, 5] (by decide) (by decide) (by decide)
    (by decide)

/-- C4 counterexample: at `total = 5`, `weights = [10, 1, 1]` the delta is
negative, yet the index list the code builds is not the descending-remainder
ranking the claim describes — the code sorts ascending when `delta < 0`
(`reverse=delta > 0`), so the claim as stated is false here. -/
theorem rankedIdxList_desc_counterexample :
    deltaOf 5 [10, 1, 1] < 0 ∧
      rankedIdxList 5 [10, 1, 1] ≠ specDescRanking 5 [10, 1, 1] := by decide

/-- C4 (amended): when `delta > 0` the word indices are ranked by fractional
remainder descending (ties by original index); when `delta < 0` they are
ranked by fractional remainder ascending (ties by original index), not by
the reused descending ranking. -/
theorem rankedIdxList_direction (total : ℤ) (weights : List ℤ) :
    (0 < deltaOf total weights →
        rankedIdxList total weights = specDescRanking total weights) ∧
    (deltaOf total weights < 0 →
        rankedIdxList total weights = specAscRanking total weights) := by
  constructor
  · intro h
    unfold rankedIdxList specDescRanking
    rw [if_pos h]
    congr 1
    apply stableSort_congr
    apply (pairwise_fst_enum (fracParts total weights)).imp
    intro a b hab
    have hiff : (a.2 < b.2) ↔ (a.2 < b.2 ∨ (b.2 = a.2 ∧ b.1 < a.1)) := by
      constructor
      · exact Or.inl
      · rintro (hx | ⟨-, hba⟩)
        · exact hx
        · omega
    exact decide_eq_decide.mpr hiff
  · intro h
    unfold rankedIdxList specAscRanking
    rw [if_neg (by omega : ¬ 0 < deltaOf total weights)]
    congr 1
    apply stableSort_congr
    apply (pairwise_fst_enum (fracParts total weights)).imp
    intro a b hab
    have hiff : (b.2 < a.2) ↔ (b.2 < a.2 ∨ (b.2 = a.2 ∧ b.1 < a.1)) := by
      constructor
      · exact Or.inl
      · rintro (hx | ⟨-, hba⟩)
        · exact hx
        · omega
    exact decide_eq_decide.mpr hiff

theorem rankedIdxList_direction_witness :
    rankedIdxList 7 [1, 1, 1, 1, 1] = specDescRanking 7 [1, 1, 1, 1, 1] ∧
      rankedIdxList 5 [10, 1, 1] = specAscRanking 5 [10, 1, 1] :=
  ⟨(rankedIdxList_direction 7 [1, 1, 1, 1, 1]).1 (by decide),
    (rankedIdxList_direction 5 [10, 1, 1]).2 (by decide)⟩

/-- C5 (last-word residue absorption): if the redistribution loop leaves
`sum(counts) ≠ total`, the residue is added to the last count (and then the
sum is exactly the total); and whenever any final count is ≤ 0 the function
raises instead of returning a positivity-violating list. -/
theorem finalCounts_residue_absorption (total : ℤ) (weights : List ℤ)
    (h1 : 1 ≤ total) (h2 : weights ≠ []) (h3 : ∀ w ∈ weights, 1 ≤ w) :
    ((countsAfterLoop total weights).sum ≠ total →
        finalCounts total weights =
          addToLast (total - (countsAfterLoop total weights).sum)
            (countsAfterLoop total weights)) ∧
    (finalCounts total weights).sum = total ∧
    ((∃ c ∈ finalCounts total weights, c ≤ 0) →
        distributeCodes total weights =
          Except.error ("Code distribution resulted in non-positive segment length.")) := by
  refine ⟨?_, finalCounts_sum total weights h2, ?_⟩
  · intro hne
    unfold finalCounts
    rw [if_pos (by omega : total - (countsAfterLoop total weights).sum ≠ 0)]
  · intro hex
    have hlenpos : 0 < weights.length := List.length_pos.mpr h2
    have hwsum : (weights.length : ℤ) ≤ weights.sum := list_length_le_sum weights h3
    unfold distributeCodes
    rw [if_neg (by omega : ¬ total ≤ 0), if_neg h2,
      if_neg (by omega : ¬ weights.sum ≤ 0), if_pos hex]

theorem finalCounts_residue_absorption_witness :
    finalCounts 3 [5, 5, 5, 5, 5] =
        addToLast (3 - (countsAfterLoop 3 [5, 5, 5, 5, 5]).sum)
          (countsAfterLoop 3 [5, 5, 5, 5, 5]) ∧
      distributeCodes 3 [5, 5, 5, 5, 5] =
        Except.error ("Code distribution resulted in non-positive segment length.") :=
  ⟨(finalCounts_residue_absorption 3 [5, 5, 5, 5, 5] (by decide) (by decide)
        (by decide)).1 (by decide),
    (finalCounts_residue_absorption 3 [5, 5, 5, 5, 5] (by decide) (by decide)
        (by decide)).2.2 (by decide)⟩

/-- C6 (partition round-trip): whenever `_build_words_from_codes` returns
normally, concatenating the code slices of the returned word records, in
order, reproduces the input code list exactly. -/
theorem buildWords_partition (codes : List ℤ) (tokens : List String)
    (ws : List WordRecord) (hc : codes ≠ []) (ht : tokens ≠ [])
    (h : buildWordsFromCodes codes tokens = Except.ok ws) :
    (ws.map WordRecord.codes).flatten = codes := by
  obtain ⟨counts, -, hws, hpos, hlen, hmap, hsum⟩ :=
    buildWords_ok_counts codes tokens ws h
  rw [hws, buildRecords_flatten, hmap, hsum, List.drop_zero, List.take_length]

theorem buildWords_partition_witness :
    (([⟨"hello", 1/10, [0, 1, 2, 3, 4]⟩,
        ⟨"world", 1/10, [5, 6, 7, 8, 9]⟩] : List WordRecord).map
      WordRecord.codes).flatten = [0, 1, 2, 3, 4, 5, 6, 7, 8, 9] :=
  buildWords_partition [0, 1, 2, 3, 4, 5, 6, 7, 8, 9] ["hello", "world"]
    [⟨"hello", 1/10, [0, 1, 2, 3, 4]⟩, ⟨"world", 1/10, [5, 6, 7, 8, 9]⟩]
    (by decide) (by decide) (by decide)

/-- C7 (Scenario B): `_distribute_codes(7, [1,1,1,1,1])` returns exactly
`[2, 2, 1, 1, 1]`; all five fractional remainders tie at `2/5`, and the
stable descending ranking leaves the indices in original order, so the two
extra units go to indices 0 and 1. -/
theorem distributeCodes_scenarioB :
    distributeCodes 7 [1, 1, 1, 1, 1] = Except.ok [2, 2, 1, 1, 1] ∧
      fracParts 7 [1, 1, 1, 1, 1] = [2/5, 2/5, 2/5, 2/5, 2/5] ∧
      rankedIdxList 7 [1, 1, 1, 1, 1] = [0, 1, 2, 3, 4] := by decide

/-- C8 (determinism): `_distribute_codes` is a pure function of its inputs —
two calls with identical `(total, weights)` yield identical results.  In
this embedding the function is deterministic by construction; the source has
no hidden state and Python `sorted` breaks remainder ties stably by original
index, as witnessed separately by the Scenario B and ranking theorems. -/
theorem distributeCodes_deterministic (total : ℤ) (weights : List ℤ)
    (r₁ r₂ : Except String (List ℤ))
    (h₁ : distributeCodes total weights = r₁)
    (h₂ : distributeCodes total weights = r₂) : r₁ = r₂ :=
  h₁.symm.trans h₂

theorem distributeCodes_deterministic_witness :
    distributeCodes 7 [1, 1, 1, 1, 1] = Except.ok [2, 2, 1, 1, 1] ∧
      (Except.ok [2, 2, 1, 1, 1] : Except String (List ℤ)) =
        Except.ok [2, 2, 1, 1, 1] :=
  ⟨by decide,
    distributeCodes_deterministic 7 [1, 1, 1, 1, 1] (Except.ok [2, 2, 1, 1, 1])
      (Except.ok [2, 2, 1, 1, 1]) (by decide) (by decide)⟩

/-- C9 (duration clamp): every word record of a successful
`_build_words_from_codes` run has duration `round(segment_length / 50.0, 2)`
— the `≤ 0` clamp branch is never taken, because segment lengths are ≥ 1 and
so the computed duration is strictly positive. -/
theorem wordRecord_duration (codes : List ℤ) (tokens : List String)
    (ws : List WordRecord)
    (h : buildWordsFromCodes codes tokens = Except.ok ws) :
    ∀ r ∈ ws,
      r.duration = round2 ((r.codes.length : ℚ) / FRAME_RATE_HZ) ∧ 0 < r.duration := by
  obtain ⟨counts, -, hws, hpos, hlen, hmap, hsum⟩ :=
    buildWords_ok_counts codes tokens ws h
  rw [hws]
  apply buildRecords_duration
  · intro p hp
    obtain ⟨a, b⟩ := p
    exact hpos b (List.of_mem_zip hp).2
  · rw [hmap, hsum]
    omega

theorem wordRecord_duration_witness :
    (⟨"hello", 1/10, [0, 1, 2, 3, 4]⟩ : WordRecord).duration =
        round2 (((⟨"hello", 1/10, [0, 1, 2, 3, 4]⟩ : WordRecord).codes.length : ℚ) /
          FRAME_RATE_HZ) ∧
      0 < (⟨"hello", 1/10, [0, 1, 2, 3, 4]⟩ : WordRecord).duration :=
  wordRecord_duration [0, 1, 2, 3, 4, 5, 6, 7, 8, 9] ["hello", "world"]
    [⟨"hello", 1/10, [0, 1, 2, 3, 4]⟩, ⟨"world", 1/10, [5, 6, 7, 8, 9]⟩]
    (by decide) ⟨"hello", 1/10, [0, 1, 2, 3, 4]⟩ (by decide)

/-- C10 (termination of rebalancing): the cyclic redistribution loop always
reaches its exit condition within `remaining + idx_list.length` iterations —
each iteration either consumes one remaining unit or permanently removes one
candidate index — so `redistribute` never loops forever and its result is
the value the loop leaves behind. -/
theorem redistribute_terminates (step : ℤ) (remaining : ℕ) (idxList : List ℕ)
    (pointer : ℕ) (counts : List ℤ) :
    ∃ result,
      redistributeAux step (remaining + idxList.length) remaining idxList pointer
          counts = some result ∧
        redistribute step remaining idxList pointer counts = result := by
  have h := redistributeAux_isSome step (remaining + idxList.length) remaining
    idxList pointer counts (le_refl _)
  cases hr : redistributeAux step (remaining + idxList.length) remaining idxList
      pointer counts with
  | none => rw [hr] at h; simp at h
  | some r =>
      refine ⟨r, rfl, ?_⟩
      unfold redistribute
      rw [hr, Option.getD_some]
